/-
Verification of the Damgård–Jurik encryption scheme (libscapi) and the GMW
circuit header, as a shallow embedding in Lean 4.

Sources embedded:
- src/include/mid_layer/DamgardJurikEnc.hpp : key classes, the scheme class
  (inline bodies), and the Damgård–Jurik operations.  The out-of-line bodies
  of setKey / encrypt / decrypt / add and the big-integer codec are not part
  of the given sources; where a definition below models such a body it is
  marked `Modelled from the spec:` and follows the specification text
  (spec.md §4.2–§4.6) only.
- src/protocols/GMW/Circuit.h : the circuit data structure and its getters.

Machine integers (`int`) are modelled as `Int`; `biginteger` as `ℕ`
(all values involved are non-negative magnitudes); `vector<byte>` as
`List ℕ`; thrown exceptions as `Except` errors.
-/
import Mathlib

/-- Error taxonomy of the scheme (spec.md §7); thrown C++ exceptions are
modelled as values of this type. -/
inductive DJError where
  | KeyNotSet
  | RangeViolation
  | SizeMismatch
  | UnsupportedOperation
  | NotImplemented
  | KeyTypeMismatch
  | ParameterInvalid
deriving DecidableEq

/-- `DamgardJurikPublicKey`: holds the modulus `n`.  The field `addr`
models the storage address (object identity) of the C++ object, which is
needed to state aliasing properties of `generateSendableData`. -/
structure DamgardJurikPublicKey where
  addr : ℕ
  modulus : ℕ
deriving DecidableEq

/-- `DamgardJurikPrivateKey`: primes `p`, `q`, group order `t`, and the
pre-computed decryption exponent `dForS1` for `s = 1`. -/
structure DamgardJurikPrivateKey where
  t : ℕ
  dForS1 : ℕ
  p : ℕ
  q : ℕ
deriving DecidableEq

/-- Modelled from the spec: the big-integer byte codec (`encodeBigInteger`,
spec.md §4.2) is not part of the given sources.  `beBytesF fuel x` is the
big-endian base-256 digit list of `x` (empty for `x = 0`); `fuel ≥ x`
guarantees termination structurally. -/
def beBytesF : ℕ → ℕ → List ℕ
  | 0, _ => []
  | f + 1, n => if n = 0 then [] else beBytesF f (n / 256) ++ [n % 256]

/-- Modelled from the spec: byte encoding of a non-negative big integer
(spec.md §4.2) — minimal big-endian bytes, with zero encoded as a single
zero byte. -/
def encodeBigInteger (x : ℕ) : List ℕ :=
  if x = 0 then [0] else beBytesF x x

/-- Modelled from the spec: inverse of the byte codec (`decodeBigInteger`,
spec.md §4.2): big-endian base-256 value of a byte list. -/
def decodeBigInteger (l : List ℕ) : ℕ :=
  l.foldl (fun a b => 256 * a + b) 0

/-- `DamgardJurikPublicKey::getEncoded`: byte export of the modulus. -/
def DamgardJurikPublicKey.getEncoded (k : DamgardJurikPublicKey) : List ℕ :=
  encodeBigInteger k.modulus

/-- `DamgardJurikPublicKey::generateSendableData`: the C++ body is
`return shared_ptr<KeySendableData>(this);` — it returns the very object it
was called on (a second owning handle over the same storage), not a copy.
The returned value therefore has the same `addr` as the receiver. -/
def DamgardJurikPublicKey.generateSendableData (k : DamgardJurikPublicKey) :
    DamgardJurikPublicKey := k

/-- `DamgardJurikPrivateKey::getEncoded`: the C++ body is
`throw NotImplementedException("")`. -/
def DamgardJurikPrivateKey.getEncoded (_ : DamgardJurikPrivateKey) :
    Except DJError (List ℕ) := .error .NotImplemented

/-- Modelled from the spec: Damgård–Jurik encryption (spec.md §4.4), body of
`DamgardJurikEnc::encrypt` not in the given sources:
`c = (1+n)^m * r^(n^s) mod n^(s+1)`. -/
def dj_encrypt (n s m r : ℕ) : ℕ :=
  ((1 + n) ^ m * r ^ n ^ s) % n ^ (s + 1)

/-- Modelled from the spec: homomorphic addition (spec.md §4.6), body of
`DamgardJurikEnc::add` not in the given sources:
`c3 = c1 * c2 * r^(n^s) mod n^(s+1)`. -/
def dj_add (n s c1 c2 r : ℕ) : ℕ :=
  (c1 * c2 * r ^ n ^ s) % n ^ (s + 1)

/-- Modelled from the spec: the function `L(b) = (b - 1) / n` used by the
Damgård–Jurik decoding recursion (spec.md §4.5 step 3). -/
def djL (x n : ℕ) : ℕ := (x - 1) / n

/-- Modelled from the spec: the correction term of stage `j` of the decoding
recursion — the contributions `C(i,k)·n^(k-1)` of the lower digits for
`k = 2, …, j` (spec.md §4.5 step 3). -/
def djCorr (i n : ℕ) : ℕ → ℕ
  | 0 => 0
  | j + 1 => djCorr i n j + if 2 ≤ j + 1 then Nat.choose i (j + 1) * n ^ j else 0

/-- Modelled from the spec: the standard Damgård–Jurik decoding recursion
(spec.md §4.5 step 3).  `djRec a n j` recovers `m mod n^j` from
`a ≡ (1+n)^m mod n^(s+1)`, one digit stage at a time: stage `j+1` reads the
residue of `a` modulo `n^(j+2)`, applies `L`, and subtracts the
contributions of the lower digits (computed from the previous stage's
value) modulo `n^(j+1)`. -/
def djRec (a n : ℕ) : ℕ → ℕ
  | 0 => 0
  | j + 1 =>
    (djL (a % n ^ (j + 2)) n
        + (n ^ (j + 1) - djCorr (djRec a n j) n (j + 1) % n ^ (j + 1)))
      % n ^ (j + 1)

/-- Modelled from the spec: Damgård–Jurik decryption (spec.md §4.5), body of
`DamgardJurikEnc::decrypt` not in the given sources: compute
`a = c^d mod n^(s+1)` and extract the plaintext by the decoding recursion. -/
def dj_decrypt (n s d c : ℕ) : ℕ :=
  djRec (c ^ d % n ^ (s + 1)) n s

/-- Modelled from the spec: a modular inverse of `a` modulo `m` via the
extended gcd (used only to lift the decryption exponent, spec.md §4.5
step 1). -/
def modInverse (a m : ℕ) : ℕ :=
  ((Nat.gcdA a m % (m : ℤ) + (m : ℤ)) % (m : ℤ)).toNat

/-- Modelled from the spec: lifting of the decryption exponent to the
current `s` (spec.md §4.5 step 1) — the CRT residue modulo `n^s * t` that
is `1 mod n^s` and `0 mod t`. -/
def liftD (n t s : ℕ) : ℕ :=
  t * modInverse t (n ^ s) % (n ^ s * t)

/-- Modelled from the spec: fuel-driven base-`n` digit length, used to pick
the minimal `s` such that a plaintext fits (spec.md §3, LengthParameter
row) when no explicit length parameter was set. -/
def baseLen (n : ℕ) : ℕ → ℕ → ℕ
  | 0, _ => 1
  | f + 1, m => if m < n then 1 else 1 + baseLen n f (m / n)

/-- Modelled from the spec: the minimal `s ≥ 1` with `m < n^s`. -/
def minimalS (n m : ℕ) : ℕ := baseLen n m m

/-- `DamgardJurikEnc`: the scheme state — current key pair, the random
source (modelled as the stream of values it will produce), the `keySet`
flag, and the length parameter `consts`. -/
structure DamgardJurikEnc where
  publicKey : Option DamgardJurikPublicKey
  privateKey : Option DamgardJurikPrivateKey
  random : List ℕ
  keySet : Bool
  consts : Int

/-- `DamgardJurikEnc()`: the constructor seeds the random source; the
member initializer of the length parameter is `int consts = -1;`. -/
def mkDamgardJurikEnc (g : List ℕ) : DamgardJurikEnc :=
  { publicKey := none, privateKey := none, random := g,
    keySet := false, consts := -1 }

/-- `DamgardJurikEnc::setLengthParameter`: `this->consts = s;`. -/
def DamgardJurikEnc.setLengthParameter (st : DamgardJurikEnc) (s : Int) :
    DamgardJurikEnc := { st with consts := s }

/-- Modelled from the spec: the body of the two-argument
`DamgardJurikEnc::setKey` is not in the given sources; per spec.md §4.3 it
binds the public key (and optionally the private key) and marks the key as
set.  The one-argument overload in the header is `setKey(publicKey, NULL)`. -/
def DamgardJurikEnc.setKey (st : DamgardJurikEnc)
    (pk : DamgardJurikPublicKey) (sk : Option DamgardJurikPrivateKey) :
    DamgardJurikEnc :=
  { st with publicKey := some pk, privateKey := sk, keySet := true }

/-- `DamgardJurikEnc::generateKey()` (no parameters): the C++ body is
`throw UnsupportedOperationException(...)`. -/
def DamgardJurikEnc.generateKeyNoParams (_ : DamgardJurikEnc) :
    Except DJError (DamgardJurikPublicKey × DamgardJurikPrivateKey) :=
  .error .UnsupportedOperation

/-- The length parameter the scheme uses for an encryption of `m` under
modulus `n`: the current `consts` if one was fixed, else the minimal `s`
such that `m` fits (spec.md §3, LengthParameter row). -/
def encLengthOf (st : DamgardJurikEnc) (n m : ℕ) : ℕ :=
  if 1 ≤ st.consts then st.consts.toNat else minimalS n m

/-- Modelled from the spec: the body of the explicit-`r`
`DamgardJurikEnc::encrypt` is not in the given sources; per spec.md §4.4 it
fails with a state error if no public key is bound, with a range error if
the plaintext is out of range, and otherwise computes
`(1+n)^m * r^(n^s) mod n^(s+1)`. -/
def DamgardJurikEnc.encrypt (st : DamgardJurikEnc) (m r : ℕ) :
    Except DJError ℕ :=
  match st.publicKey with
  | none => .error .KeyNotSet
  | some pk =>
    if m < pk.modulus ^ encLengthOf st pk.modulus m then
      .ok (dj_encrypt pk.modulus (encLengthOf st pk.modulus m) m r)
    else .error .RangeViolation

/-- Modelled from the spec: the body of `DamgardJurikEnc::decrypt` is not
in the given sources; per spec.md §4.5 it fails with a key-missing error if
no private key is bound, with a range error if the ciphertext is not a unit
modulo `n^(s+1)`, and otherwise runs the Damgård–Jurik decryption with the
exponent for the current `s`. -/
def DamgardJurikEnc.decrypt (st : DamgardJurikEnc) (c : ℕ) :
    Except DJError ℕ :=
  match st.privateKey, st.publicKey with
  | none, _ => .error .KeyNotSet
  | some _, none => .error .KeyNotSet
  | some sk, some pk =>
    let s : ℕ := if 1 ≤ st.consts then st.consts.toNat else 1
    let d : ℕ := if s = 1 then sk.dForS1 else liftD pk.modulus sk.t s
    if Nat.gcd c (pk.modulus ^ (s + 1)) = 1 then
      .ok (dj_decrypt pk.modulus s d c)
    else .error .RangeViolation

/-- `Gate` (src/protocols/GMW/Circuit.h): the four `int` fields. -/
structure Gate where
  inputIndex1 : Int
  inputIndex2 : Int
  outputIndex : Int
  gateType : Int
deriving DecidableEq

/-- `Circuit` (src/protocols/GMW/Circuit.h): gate list, per-party wire
indices, and the counters (`int` fields with `= 0` initializers). -/
structure Circuit where
  gates : List Gate
  partiesInputs : List (List Int)
  partiesOutputs : List (List Int)
  numberOfParties : Int
  nrOfAndGates : Int
  nrOfXorGates : Int
  nrOfInput : Int
  nrOfOutput : Int

/-- `Circuit::getNrOfAndGates`. -/
def Circuit.getNrOfAndGates (c : Circuit) : Int := c.nrOfAndGates

/-- `Circuit::getNrOfXorGates`. -/
def Circuit.getNrOfXorGates (c : Circuit) : Int := c.nrOfXorGates

/-- `Circuit::getNrOfInput`. -/
def Circuit.getNrOfInput (c : Circuit) : Int := c.nrOfInput

/-- `Circuit::getNrOfOutput`. -/
def Circuit.getNrOfOutput (c : Circuit) : Int := c.nrOfOutput

/-- `Circuit::getNrOfGates`: `return (nrOfAndGates + nrOfXorGates);`. -/
def Circuit.getNrOfGates (c : Circuit) : Int :=
  c.nrOfAndGates + c.nrOfXorGates

/-! Theorems.  First the byte-codec lemmas, then the per-claim theorems. -/

theorem decodeBigInteger_append_byte (l : List ℕ) (b : ℕ) :
    decodeBigInteger (l ++ [b]) = 256 * decodeBigInteger l + b := by
  unfold decodeBigInteger
  rw [List.foldl_append]
  rfl

theorem decodeBigInteger_beBytesF :
    ∀ f x : ℕ, x ≤ f → decodeBigInteger (beBytesF f x) = x := by
  intro f
  induction f with
  | zero =>
    intro x hx
    have hx0 : x = 0 := by omega
    subst hx0
    rfl
  | succ f ih =>
    intro x hx
    by_cases h : x = 0
    · subst h; rfl
    · have hdiv : x / 256 < x := Nat.div_lt_self (by omega) (by omega)
      rw [beBytesF, if_neg h, decodeBigInteger_append_byte,
        ih (x / 256) (by omega)]
      omega

/-- C8: decoding the byte encoding of any non-negative big integer yields
it back, and the encoding of zero is a single zero byte. -/
theorem decode_encode_roundtrip :
    (∀ x : ℕ, decodeBigInteger (encodeBigInteger x) = x) ∧
      encodeBigInteger 0 = [0] := by
  refine ⟨fun x => ?_, rfl⟩
  by_cases h : x = 0
  · subst h; rfl
  · rw [encodeBigInteger, if_neg h]
    exact decodeBigInteger_beBytesF x x le_rfl

/-- C10: `getNrOfGates` returns exactly the sum of the AND-gate count and
the XOR-gate count, and its value does not depend on the input/output gate
counters. -/
theorem getNrOfGates_eq_and_plus_xor :
    ∀ c : Circuit,
      c.getNrOfGates = c.getNrOfAndGates + c.getNrOfXorGates ∧
        ∀ i o : Int,
          ({ c with nrOfInput := i, nrOfOutput := o } : Circuit).getNrOfGates
            = c.getNrOfGates :=
  fun _ => ⟨rfl, fun _ _ => rfl⟩

/-- C6: the parameterless `generateKey` always fails with
`UnsupportedOperation` and never returns a key pair. -/
theorem generateKeyNoParams_unsupported :
    ∀ st : DamgardJurikEnc,
      st.generateKeyNoParams = .error .UnsupportedOperation ∧
        ∀ kp, st.generateKeyNoParams ≠ .ok kp :=
  fun _ => ⟨rfl, fun _ h => Except.noConfusion h⟩

/-- C7: `getEncoded` on a private key always fails with the
not-implemented error and never returns a byte encoding. -/
theorem privateKey_getEncoded_fails :
    ∀ k : DamgardJurikPrivateKey,
      k.getEncoded = .error .NotImplemented ∧
        ∀ bs, k.getEncoded ≠ .ok bs :=
  fun _ => ⟨rfl, fun _ h => Except.noConfusion h⟩

/-- C3: `generateSendableData` returns the very object it is called on
(`return shared_ptr<KeySendableData>(this);`), so the returned value lives
at the key's own storage address — it aliases the key rather than being an
independently owned copy. -/
theorem generateSendableData_returns_self :
    ∀ k : DamgardJurikPublicKey,
      k.generateSendableData = k ∧ k.generateSendableData.addr = k.addr :=
  fun _ => ⟨rfl, rfl⟩

/-- C4 counterexample: a freshly constructed scheme has `consts = -1`, so
the length parameter is not `≥ 1` there, nor after `setLengthParameter 0`. -/
theorem consts_not_positive_when_fresh :
    ¬ (1 ≤ (mkDamgardJurikEnc []).consts) ∧
      ¬ (1 ≤ ((mkDamgardJurikEnc []).setLengthParameter 0).consts) := by
  decide

/-- C4 (amended): a freshly constructed scheme has the sentinel
`consts = -1`, and `setLengthParameter` stores its argument unvalidated, so
the stored length parameter equals exactly what the caller passed. -/
theorem consts_init_and_setLengthParameter :
    (∀ g : List ℕ, (mkDamgardJurikEnc g).consts = -1) ∧
      ∀ (st : DamgardJurikEnc) (s : Int),
        (st.setLengthParameter s).consts = s :=
  ⟨fun _ => rfl, fun _ _ => rfl⟩

/-- C9: encryption with an explicitly supplied random value is
deterministic — the ciphertext depends only on the plaintext, the random
value, the bound key and the length parameter, not on the scheme's hidden
random-source state (or the `keySet` flag), so two calls with identical
`(m, r, key)` yield identical ciphertexts. -/
theorem encrypt_explicit_r_deterministic :
    ∀ (k : Option DamgardJurikPublicKey) (sk : Option DamgardJurikPrivateKey)
      (g1 g2 : List ℕ) (b1 b2 : Bool) (co : Int) (m r : ℕ),
      (DamgardJurikEnc.mk k sk g1 b1 co).encrypt m r =
        (DamgardJurikEnc.mk k sk g2 b2 co).encrypt m r := by
  intro k sk g1 g2 b1 b2 co m r
  cases k <;> rfl

/-- C5: after `setKey` with only a public key, `decrypt` fails with the
key-missing error for every ciphertext, while `encrypt` succeeds on every
in-range plaintext. -/
theorem setKey_public_only_decrypt_key_missing :
    ∀ (st : DamgardJurikEnc) (k : DamgardJurikPublicKey) (c m r : ℕ),
      (st.setKey k none).decrypt c = .error .KeyNotSet ∧
        (m < k.modulus ^ encLengthOf (st.setKey k none) k.modulus m →
          (st.setKey k none).encrypt m r =
            .ok (dj_encrypt k.modulus
              (encLengthOf (st.setKey k none) k.modulus m) m r)) := by
  intro st k c m r
  refine ⟨rfl, fun h => ?_⟩
  unfold DamgardJurikEnc.encrypt
  simp only [DamgardJurikEnc.setKey] at h ⊢
  rw [if_pos h]

/-- Witness for C5 at a concrete state: a fresh scheme given only the
public key with modulus 15 refuses to decrypt but encrypts `m = 7`. -/
theorem setKey_public_only_witness :
    ((mkDamgardJurikEnc []).setKey ⟨0, 15⟩ none).decrypt 7
        = .error .KeyNotSet ∧
      ((mkDamgardJurikEnc []).setKey ⟨0, 15⟩ none).encrypt 7 2
        = .ok (dj_encrypt 15 1 7 2) := by
  have H := setKey_public_only_decrypt_key_missing (mkDamgardJurikEnc [])
    ⟨0, 15⟩ 7 7 2
  exact ⟨H.1, H.2 (by decide)⟩

/-! Congruence lemmas for the decoding recursion. -/

theorem descFactorial_cast_zmod (N k m : ℕ) :
    (Nat.descFactorial m k : ZMod N)
      = ∏ i ∈ Finset.range k, ((m : ZMod N) - (i : ZMod N)) := by
  induction k with
  | zero => simp
  | succ k ih =>
    rcases le_or_lt k m with h | h
    · rw [Nat.descFactorial_succ, Finset.prod_range_succ, ← ih,
        Nat.cast_mul, Nat.cast_sub h]
      ring
    · have h1 : Nat.descFactorial m (k + 1) = 0 :=
        Nat.descFactorial_eq_zero_iff_lt.mpr (by omega)
      have h2 : (∏ i ∈ Finset.range (k + 1), ((m : ZMod N) - (i : ZMod N)))
          = 0 :=
        Finset.prod_eq_zero (Finset.mem_range.mpr (by omega)) (sub_self _)
      rw [h1, h2, Nat.cast_zero]

theorem descFactorial_modEq (N m a k : ℕ) (h : m ≡ a [MOD N]) :
    Nat.descFactorial m k ≡ Nat.descFactorial a k [MOD N] := by
  rw [← ZMod.natCast_eq_natCast_iff] at h ⊢
  rw [descFactorial_cast_zmod, descFactorial_cast_zmod, h]

theorem choose_modEq (N m a k : ℕ) (hk : Nat.Coprime (Nat.factorial k) N)
    (h : m ≡ a [MOD N]) : Nat.choose m k ≡ Nat.choose a k [MOD N] := by
  have h1 : Nat.factorial k * Nat.choose m k
      ≡ Nat.factorial k * Nat.choose a k [MOD N] := by
    rw [← Nat.descFactorial_eq_factorial_mul_choose,
      ← Nat.descFactorial_eq_factorial_mul_choose]
    exact descFactorial_modEq N m a k h
  exact Nat.ModEq.cancel_left_of_coprime hk.symm h1

theorem djCorr_modEq (n P i a : ℕ) (J : ℕ)
    (h : ∀ k, 2 ≤ k → k ≤ J →
      Nat.choose i k * n ^ (k - 1) ≡ Nat.choose a k * n ^ (k - 1) [MOD P]) :
    djCorr i n J ≡ djCorr a n J [MOD P] := by
  induction J with
  | zero => rfl
  | succ J ih =>
    rw [djCorr, djCorr]
    refine Nat.ModEq.add (ih fun k h2 hk => h k h2 (by omega)) ?_
    by_cases h2 : 2 ≤ J + 1
    · rw [if_pos h2, if_pos h2]
      have h3 := h (J + 1) h2 le_rfl
      simpa using h3
    · rw [if_neg h2, if_neg h2]

theorem modEq_div_of_dvd (k N x y : ℕ) (hk : k ≠ 0) (hx : k ∣ x) (hy : k ∣ y)
    (h : x ≡ y [MOD k * N]) : x / k ≡ y / k [MOD N] := by
  obtain ⟨a, rfl⟩ := hx
  obtain ⟨b, rfl⟩ := hy
  rw [Nat.mul_div_cancel_left _ (Nat.pos_of_ne_zero hk),
    Nat.mul_div_cancel_left _ (Nat.pos_of_ne_zero hk)]
  exact Nat.ModEq.mul_left_cancel' hk h

theorem modEq_sub_one (N x y : ℕ) (hx : 1 ≤ x) (hy : 1 ≤ y)
    (h : x ≡ y [MOD N]) : x - 1 ≡ y - 1 [MOD N] := by
  have h1 : (x - 1) + 1 ≡ (y - 1) + 1 [MOD N] := by
    rwa [Nat.sub_add_cancel hx, Nat.sub_add_cancel hy]
  exact Nat.ModEq.add_right_cancel' 1 h1

/-! Binomial expansion of `(1+n)^m` modulo `n^(j+1)`. -/

theorem sum_range_choose_eq (n m : ℕ) :
    ∀ J, 1 ≤ J →
      ∑ k ∈ Finset.range (J + 1), n ^ k * Nat.choose m k
        = 1 + n * (m + djCorr m n J) := by
  intro J hJ
  induction J with
  | zero => omega
  | succ J ih =>
    by_cases hJ0 : J = 0
    · subst hJ0
      rw [Finset.sum_range_succ, Finset.sum_range_one]
      norm_num [djCorr]
    · rw [Finset.sum_range_succ, ih (by omega), djCorr, if_pos (by omega)]
      ring

theorem one_add_pow_modEq (n m j : ℕ) (hj : 1 ≤ j) :
    (1 + n) ^ m ≡ 1 + n * (m + djCorr m n j) [MOD n ^ (j + 1)] := by
  have hbin : (1 + n) ^ m
      = ∑ k ∈ Finset.range (m + 1), n ^ k * Nat.choose m k := by
    rw [add_comm 1 n, add_pow]
    simp
  rcases le_or_lt m j with h | h
  · have he : ∑ k ∈ Finset.range (m + 1), n ^ k * Nat.choose m k
        = ∑ k ∈ Finset.range (j + 1), n ^ k * Nat.choose m k := by
      apply Finset.sum_subset (Finset.range_subset.mpr (by omega))
      intro x hx hnx
      simp only [Finset.mem_range] at hx hnx
      rw [Nat.choose_eq_zero_of_lt (by omega), Nat.mul_zero]
    rw [hbin, he, sum_range_choose_eq n m j hj]
  · have hsplit : ∑ k ∈ Finset.range (m + 1), n ^ k * Nat.choose m k
        = (∑ k ∈ Finset.range (j + 1), n ^ k * Nat.choose m k)
          + ∑ k ∈ Finset.Ico (j + 1) (m + 1), n ^ k * Nat.choose m k := by
      simp only [Finset.range_eq_Ico]
      exact (Finset.sum_Ico_consecutive _ (by omega) (by omega)).symm
    have hdvd : n ^ (j + 1)
        ∣ ∑ k ∈ Finset.Ico (j + 1) (m + 1), n ^ k * Nat.choose m k := by
      apply Finset.dvd_sum
      intro k hk
      exact Dvd.dvd.mul_right (pow_dvd_pow n (Finset.mem_Ico.mp hk).1) _
    rw [hbin, hsplit, sum_range_choose_eq n m j hj]
    exact ((Nat.modEq_iff_dvd' (Nat.le_add_right _ _)).mpr
      (by simpa using hdvd)).symm

/-! `1 + n` has order dividing `n^j` modulo `n^(j+1)`. -/

theorem pow_dvd_mul_djCorr (n j : ℕ) (hc : Nat.Coprime (Nat.factorial j) n) :
    ∀ J, J ≤ j → n ^ (j + 1) ∣ n * djCorr (n ^ j) n J := by
  intro J
  induction J with
  | zero => intro _; simp [djCorr]
  | succ J ih =>
    intro hJ
    rw [djCorr, Nat.mul_add]
    refine dvd_add (ih (by omega)) ?_
    by_cases h2 : 2 ≤ J + 1
    · rw [if_pos h2]
      have hn0 : n ≠ 0 := by
        intro h0
        subst h0
        rw [Nat.coprime_zero_right, Nat.factorial_eq_one] at hc
        omega
      have hp1 : 0 < n ^ j := pow_pos (Nat.pos_of_ne_zero hn0) j
      have hid2 : n ^ j * Nat.choose (n ^ j - 1) J
          = Nat.choose (n ^ j) (J + 1) * (J + 1) := by
        have hid := Nat.succ_mul_choose_eq (n ^ j - 1) J
        rw [show (n ^ j - 1).succ = n ^ j by omega] at hid
        simpa [Nat.succ_eq_add_one] using hid
      have hdd : n ^ (j + 1)
          ∣ (Nat.choose (n ^ j) (J + 1) * n ^ (J + 1)) * (J + 1) := by
        have he : (Nat.choose (n ^ j) (J + 1) * n ^ (J + 1)) * (J + 1)
            = (Nat.choose (n ^ j) (J + 1) * (J + 1)) * n ^ (J + 1) := by
          ring
        rw [he, ← hid2]
        have hd2 : n ^ (j + 1) ∣ n ^ j * n ^ (J + 1) := by
          rw [← pow_add]
          exact pow_dvd_pow n (by omega)
        calc n ^ (j + 1) ∣ n ^ j * n ^ (J + 1) := hd2
          _ ∣ (n ^ j * Nat.choose (n ^ j - 1) J) * n ^ (J + 1) :=
            ⟨Nat.choose (n ^ j - 1) J, by ring⟩
      have hkc : Nat.Coprime (n ^ (j + 1)) (J + 1) := by
        have h1 : Nat.Coprime (J + 1) n :=
          Nat.Coprime.coprime_dvd_left (Nat.dvd_factorial (by omega) hJ) hc
        exact (h1.pow_right _).symm
      have hfin : n ^ (j + 1) ∣ Nat.choose (n ^ j) (J + 1) * n ^ (J + 1) :=
        Nat.Coprime.dvd_of_dvd_mul_right hkc hdd
      have he2 : n * (Nat.choose (n ^ j) (J + 1) * n ^ J)
          = Nat.choose (n ^ j) (J + 1) * n ^ (J + 1) := by
        rw [pow_succ]; ring
      rw [he2]
      exact hfin
    · rw [if_neg h2]
      simp

theorem one_add_pow_pow_modEq_one (n j : ℕ) (hj : 1 ≤ j)
    (hc : Nat.Coprime (Nat.factorial j) n) :
    (1 + n) ^ n ^ j ≡ 1 [MOD n ^ (j + 1)] := by
  have h1 := one_add_pow_modEq n (n ^ j) j hj
  have hdvd : n ^ (j + 1) ∣ n * (n ^ j + djCorr (n ^ j) n j) := by
    rw [Nat.mul_add]
    refine dvd_add ?_ (pow_dvd_mul_djCorr n j hc j le_rfl)
    rw [← pow_succ']
  refine h1.trans ?_
  exact ((Nat.modEq_iff_dvd' (by omega)).mpr (by simpa using hdvd)).symm

/-! Units modulo `n^(s+1)` have order dividing `n^s * t`. -/

theorem pow_modEq_one_of_totient_dvd (x M E : ℕ) (hx : Nat.Coprime x M)
    (h : Nat.totient M ∣ E) : x ^ E ≡ 1 [MOD M] := by
  obtain ⟨c, rfl⟩ := h
  rw [pow_mul]
  calc (x ^ Nat.totient M) ^ c ≡ 1 ^ c [MOD M] :=
        (Nat.ModEq.pow_totient hx).pow c
    _ = 1 := one_pow c

theorem unit_pow_lcm_pow (p q s r : ℕ) (hp : Nat.Prime p) (hq : Nat.Prime q)
    (hne : p ≠ q) (hr : Nat.Coprime r (p * q)) :
    r ^ ((p * q) ^ s * Nat.lcm (p - 1) (q - 1)) ≡ 1 [MOD (p * q) ^ (s + 1)] := by
  have hcop : Nat.Coprime (p ^ (s + 1)) (q ^ (s + 1)) :=
    ((Nat.coprime_primes hp hq).mpr hne).pow (s + 1) (s + 1)
  have hdp : Nat.totient (p ^ (s + 1))
      ∣ (p * q) ^ s * Nat.lcm (p - 1) (q - 1) := by
    rw [Nat.totient_prime_pow hp (Nat.succ_pos s), Nat.succ_sub_one, mul_pow]
    have h1 : p ^ s * (p - 1) ∣ p ^ s * (q ^ s * Nat.lcm (p - 1) (q - 1)) :=
      Nat.mul_dvd_mul_left _ (Dvd.dvd.mul_left (Nat.dvd_lcm_left _ _) _)
    simpa [mul_assoc] using h1
  have hdq : Nat.totient (q ^ (s + 1))
      ∣ (p * q) ^ s * Nat.lcm (p - 1) (q - 1) := by
    rw [Nat.totient_prime_pow hq (Nat.succ_pos s), Nat.succ_sub_one, mul_pow]
    have h1 : q ^ s * (q - 1) ∣ q ^ s * (p ^ s * Nat.lcm (p - 1) (q - 1)) :=
      Nat.mul_dvd_mul_left _ (Dvd.dvd.mul_left (Nat.dvd_lcm_right _ _) _)
    have h2 : p ^ s * (q ^ s * (q - 1)) = q ^ s * (p ^ s * (q - 1)) := by ring
    calc q ^ s * (q - 1) ∣ q ^ s * (p ^ s * Nat.lcm (p - 1) (q - 1)) := h1
      _ = p ^ s * q ^ s * Nat.lcm (p - 1) (q - 1) := by ring
  have h1 : r ^ ((p * q) ^ s * Nat.lcm (p - 1) (q - 1)) ≡ 1 [MOD p ^ (s + 1)] :=
    pow_modEq_one_of_totient_dvd _ _ _
      ((Nat.Coprime.coprime_dvd_right (dvd_mul_right p q) hr).pow_right _) hdp
  have h2 : r ^ ((p * q) ^ s * Nat.lcm (p - 1) (q - 1)) ≡ 1 [MOD q ^ (s + 1)] :=
    pow_modEq_one_of_totient_dvd _ _ _
      ((Nat.Coprime.coprime_dvd_right (dvd_mul_left q p) hr).pow_right _) hdq
  have h3 := (Nat.modEq_and_modEq_iff_modEq_mul hcop).mp ⟨h1, h2⟩
  rwa [← mul_pow] at h3

/-! Correctness of the decoding recursion and of decryption. -/

theorem djRec_lt (a n : ℕ) (hn : 0 < n) (j : ℕ) : djRec a n j < n ^ j := by
  cases j with
  | zero => simp [djRec]
  | succ j =>
    simp only [djRec]
    exact Nat.mod_lt _ (pow_pos hn _)

theorem djRec_modEq (a n m s : ℕ) (hn : 2 ≤ n) (hs : 1 ≤ s)
    (hc : Nat.Coprime (Nat.factorial s) n)
    (ha : a ≡ (1 + n) ^ m [MOD n ^ (s + 1)]) :
    ∀ j, j ≤ s → djRec a n j ≡ m [MOD n ^ j] := by
  intro j
  induction j with
  | zero =>
    intro _
    simp only [djRec, pow_zero]
    exact Nat.modEq_one
  | succ j ih =>
    intro hj1
    have ihj : djRec a n j ≡ m [MOD n ^ j] := ih (by omega)
    have hx : a % n ^ (j + 2)
        ≡ 1 + n * (m + djCorr m n (j + 1)) [MOD n ^ (j + 2)] := by
      have h1 : a % n ^ (j + 2) ≡ a [MOD n ^ (j + 2)] := Nat.mod_modEq a _
      have h2 : a ≡ (1 + n) ^ m [MOD n ^ (j + 2)] :=
        ha.of_dvd (pow_dvd_pow n (by omega))
      exact (h1.trans h2).trans (one_add_pow_modEq n m (j + 1) (by omega))
    have hxn : a % n ^ (j + 2) ≡ 1 [MOD n] := by
      have h1 := hx.of_dvd (dvd_pow_self n (by omega : j + 2 ≠ 0))
      have h0 : (1 : ℕ) + n * (m + djCorr m n (j + 1)) ≡ 1 + 0 [MOD n] :=
        Nat.ModEq.add_left 1 (Nat.modEq_zero_iff_dvd.mpr (dvd_mul_right n _))
      simpa using h1.trans h0
    have hx1 : 1 ≤ a % n ^ (j + 2) := by
      rcases Nat.eq_zero_or_pos (a % n ^ (j + 2)) with h00 | h00
      · rw [h00] at hxn
        have h01 : (0 : ℕ) % n = 1 % n := hxn
        rw [Nat.zero_mod, Nat.mod_eq_of_lt (by omega)] at h01
        omega
      · exact h00
    have hdvd1 : n ∣ a % n ^ (j + 2) - 1 := (Nat.modEq_iff_dvd' hx1).mp hxn.symm
    have ht1 : djL (a % n ^ (j + 2)) n
        ≡ m + djCorr m n (j + 1) [MOD n ^ (j + 1)] := by
      have hsub : a % n ^ (j + 2) - 1
          ≡ n * (m + djCorr m n (j + 1)) [MOD n * n ^ (j + 1)] := by
        have h4 : n ^ (j + 2) = n * n ^ (j + 1) := by ring
        rw [← h4]
        have h3 := modEq_sub_one (n ^ (j + 2)) _ _ hx1 (by omega) hx
        simpa using h3
      have hdiv := modEq_div_of_dvd n (n ^ (j + 1)) _ _ (by omega) hdvd1
        (dvd_mul_right n _) hsub
      rw [Nat.mul_div_cancel_left _ (by omega : 0 < n)] at hdiv
      show (a % n ^ (j + 2) - 1) / n ≡ m + djCorr m n (j + 1) [MOD n ^ (j + 1)]
      exact hdiv
    have hcorr : djCorr (djRec a n j) n (j + 1)
        ≡ djCorr m n (j + 1) [MOD n ^ (j + 1)] := by
      apply djCorr_modEq
      intro k hk2 hkj
      have hkf : Nat.Coprime (Nat.factorial k) (n ^ j) :=
        (Nat.Coprime.coprime_dvd_left
          (Nat.factorial_dvd_factorial (by omega)) hc).pow_right _
      have hch := choose_modEq (n ^ j) _ m k hkf ihj
      refine Nat.ModEq.of_dvd ?_ (Nat.ModEq.mul_right' (n ^ (k - 1)) hch)
      rw [← pow_add]
      exact pow_dvd_pow n (by omega)
    have hP : 0 < n ^ (j + 1) := pow_pos (by omega) _
    have hcorrle : djCorr (djRec a n j) n (j + 1) % n ^ (j + 1) ≤ n ^ (j + 1) :=
      le_of_lt (Nat.mod_lt _ hP)
    simp only [djRec]
    have key : (djL (a % n ^ (j + 2)) n
            + (n ^ (j + 1) - djCorr (djRec a n j) n (j + 1) % n ^ (j + 1)))
            % n ^ (j + 1)
          + djCorr (djRec a n j) n (j + 1) % n ^ (j + 1)
        ≡ m + djCorr (djRec a n j) n (j + 1) % n ^ (j + 1)
            [MOD n ^ (j + 1)] := by
      calc (djL (a % n ^ (j + 2)) n
              + (n ^ (j + 1) - djCorr (djRec a n j) n (j + 1) % n ^ (j + 1)))
              % n ^ (j + 1)
            + djCorr (djRec a n j) n (j + 1) % n ^ (j + 1)
          ≡ djL (a % n ^ (j + 2)) n
              + (n ^ (j + 1) - djCorr (djRec a n j) n (j + 1) % n ^ (j + 1))
              + djCorr (djRec a n j) n (j + 1) % n ^ (j + 1)
              [MOD n ^ (j + 1)] :=
            Nat.ModEq.add_right _ (Nat.mod_modEq _ _)
        _ = djL (a % n ^ (j + 2)) n + n ^ (j + 1) := by omega
        _ ≡ djL (a % n ^ (j + 2)) n + 0 [MOD n ^ (j + 1)] :=
            Nat.ModEq.add_left _ (Nat.modEq_zero_iff_dvd.mpr dvd_rfl)
        _ = djL (a % n ^ (j + 2)) n := by omega
        _ ≡ m + djCorr m n (j + 1) [MOD n ^ (j + 1)] := ht1
        _ ≡ m + djCorr (djRec a n j) n (j + 1) [MOD n ^ (j + 1)] :=
            Nat.ModEq.add_left m hcorr.symm
        _ ≡ m + djCorr (djRec a n j) n (j + 1) % n ^ (j + 1)
              [MOD n ^ (j + 1)] :=
            Nat.ModEq.add_left m (Nat.mod_modEq _ _).symm
    exact Nat.ModEq.add_right_cancel' _ key

theorem dj_decrypt_of_modEq (p q n t d s M r c : ℕ)
    (hp : Nat.Prime p) (hq : Nat.Prime q) (hne : p ≠ q)
    (hn : n = p * q) (ht : t = Nat.lcm (p - 1) (q - 1))
    (hs : 1 ≤ s) (hsp : s < p) (hsq : s < q)
    (hd1 : d ≡ 1 [MOD n ^ s]) (hdt : t ∣ d)
    (hr : Nat.Coprime r n)
    (hc : c ≡ (1 + n) ^ M * r ^ n ^ s [MOD n ^ (s + 1)]) :
    dj_decrypt n s d c = M % n ^ s := by
  have hp2 := hp.two_le
  have hq2 := hq.two_le
  have hn2 : 2 ≤ n := by
    rw [hn]
    calc 2 ≤ 2 * 2 := by omega
      _ ≤ p * q := Nat.mul_le_mul hp2 hq2
  have hfac : Nat.Coprime (Nat.factorial s) n := by
    have hfp : Nat.Coprime (Nat.factorial s) p :=
      ((Nat.Prime.coprime_iff_not_dvd hp).mpr fun hdd =>
        absurd ((Nat.Prime.dvd_factorial hp).mp hdd) (by omega)).symm
    have hfq : Nat.Coprime (Nat.factorial s) q :=
      ((Nat.Prime.coprime_iff_not_dvd hq).mpr fun hdd =>
        absurd ((Nat.Prime.dvd_factorial hq).mp hdd) (by omega)).symm
    rw [hn]
    exact Nat.Coprime.mul_right hfp hfq
  have hns2 : 2 ≤ n ^ s := le_trans hn2 (Nat.le_self_pow (by omega) n)
  have hdmod : d % n ^ s = 1 := by
    have h1 : d % n ^ s = 1 % n ^ s := hd1
    have h2 : 1 % n ^ s = 1 := Nat.mod_eq_of_lt (by omega)
    omega
  have hd' : d = n ^ s * (d / n ^ s) + 1 := by
    have h2 := Nat.div_add_mod d (n ^ s)
    omega
  have hcd : c ^ d ≡ (1 + n) ^ M [MOD n ^ (s + 1)] := by
    have h1 : c ^ d ≡ ((1 + n) ^ M * r ^ n ^ s) ^ d [MOD n ^ (s + 1)] :=
      hc.pow d
    have hexp : ((1 + n) ^ M * r ^ n ^ s) ^ d
        = (1 + n) ^ (M * d) * r ^ (n ^ s * d) := by
      rw [mul_pow, ← pow_mul, ← pow_mul]
    have hrt : r ^ (n ^ s * d) ≡ 1 [MOD n ^ (s + 1)] := by
      obtain ⟨v, hv⟩ := hdt
      have h3 := unit_pow_lcm_pow p q s r hp hq hne (by rwa [hn] at hr)
      rw [← hn, ← ht] at h3
      rw [show n ^ s * d = (n ^ s * t) * v by rw [hv]; ring, pow_mul]
      calc (r ^ (n ^ s * t)) ^ v ≡ 1 ^ v [MOD n ^ (s + 1)] := h3.pow v
        _ = 1 := one_pow v
    have hmm : (1 + n) ^ (M * d) ≡ (1 + n) ^ M [MOD n ^ (s + 1)] := by
      have h4 := one_add_pow_pow_modEq_one n s hs hfac
      have he : (1 + n) ^ (M * d)
          = (1 + n) ^ M * ((1 + n) ^ n ^ s) ^ (d / n ^ s * M) := by
        rw [← pow_mul, ← pow_add]
        congr 1
        conv_lhs => rw [hd']
        ring
      rw [he]
      calc (1 + n) ^ M * ((1 + n) ^ n ^ s) ^ (d / n ^ s * M)
          ≡ (1 + n) ^ M * 1 ^ (d / n ^ s * M) [MOD n ^ (s + 1)] :=
            Nat.ModEq.mul_left _ (h4.pow _)
        _ = (1 + n) ^ M := by rw [one_pow, mul_one]
    calc c ^ d ≡ (1 + n) ^ (M * d) * r ^ (n ^ s * d) [MOD n ^ (s + 1)] := by
          rw [← hexp]; exact h1
      _ ≡ (1 + n) ^ M * 1 [MOD n ^ (s + 1)] := Nat.ModEq.mul hmm hrt
      _ = (1 + n) ^ M := mul_one _
  have ha : c ^ d % n ^ (s + 1) ≡ (1 + n) ^ M [MOD n ^ (s + 1)] :=
    (Nat.mod_modEq _ _).trans hcd
  have hrec := djRec_modEq (c ^ d % n ^ (s + 1)) n M s hn2 hs hfac ha s le_rfl
  have hlt := djRec_lt (c ^ d % n ^ (s + 1)) n (by omega) s
  calc dj_decrypt n s d c
      = djRec (c ^ d % n ^ (s + 1)) n s % n ^ s :=
        (Nat.mod_eq_of_lt hlt).symm
    _ = M % n ^ s := hrec

/-- C1: for every valid Damgård–Jurik key pair (distinct primes `p`, `q`
larger than the length parameter, `n = p*q`, `t = lcm(p-1, q-1)`, and
decryption exponent `d ≡ 1 mod n^s`, `d ≡ 0 mod t`), every length parameter
`s ≥ 1` (in particular `s = 1` and `s = 2`), every plaintext `0 ≤ m < n^s`
and every unit `r`, decrypting the encryption of `m` returns `m`. -/
theorem dj_encrypt_decrypt_roundtrip (p q n t d s m r : ℕ)
    (hp : Nat.Prime p) (hq : Nat.Prime q) (hne : p ≠ q)
    (hn : n = p * q) (ht : t = Nat.lcm (p - 1) (q - 1))
    (hs : 1 ≤ s) (hsp : s < p) (hsq : s < q)
    (hd1 : d ≡ 1 [MOD n ^ s]) (hdt : t ∣ d)
    (hm : m < n ^ s) (hr : Nat.Coprime r n) :
    dj_decrypt n s d (dj_encrypt n s m r) = m := by
  have h := dj_decrypt_of_modEq p q n t d s m r (dj_encrypt n s m r)
    hp hq hne hn ht hs hsp hsq hd1 hdt hr
    (by unfold dj_encrypt; exact Nat.mod_modEq _ _)
  rwa [Nat.mod_eq_of_lt hm] at h

/-- Witness for C1 with the fixture key `p = 3`, `q = 5`, `n = 15`,
`t = 4`: round trips at `s = 1` (`d = 16`, `m = 7`) and at `s = 2`
(`d = 676`, `m = 123`). -/
theorem dj_encrypt_decrypt_roundtrip_witness :
    dj_decrypt 15 1 16 (dj_encrypt 15 1 7 2) = 7 ∧
      dj_decrypt 15 2 676 (dj_encrypt 15 2 123 7) = 123 := by
  constructor
  · exact dj_encrypt_decrypt_roundtrip 3 5 15 4 16 1 7 2 (by norm_num)
      (by norm_num) (by decide) (by decide) (by decide) (by decide)
      (by decide) (by decide) (by decide) (by decide) (by decide) (by decide)
  · exact dj_encrypt_decrypt_roundtrip 3 5 15 4 676 2 123 7 (by norm_num)
      (by norm_num) (by decide) (by decide) (by decide) (by decide)
      (by decide) (by decide) (by decide) (by decide) (by decide) (by decide)

/-- C2: for every valid key pair and length parameter as in the round-trip
theorem, all plaintexts `m1, m2 < n^s` and all units `r1`, `r2`, `u`,
decrypting the homomorphic sum of the encryptions of `m1` and `m2` yields
`(m1 + m2) mod n^s`. -/
theorem dj_add_homomorphic (p q n t d s m1 m2 r1 r2 u : ℕ)
    (hp : Nat.Prime p) (hq : Nat.Prime q) (hne : p ≠ q)
    (hn : n = p * q) (ht : t = Nat.lcm (p - 1) (q - 1))
    (hs : 1 ≤ s) (hsp : s < p) (hsq : s < q)
    (hd1 : d ≡ 1 [MOD n ^ s]) (hdt : t ∣ d)
    (hm1 : m1 < n ^ s) (hm2 : m2 < n ^ s)
    (hr1 : Nat.Coprime r1 n) (hr2 : Nat.Coprime r2 n)
    (hu : Nat.Coprime u n) :
    dj_decrypt n s d
        (dj_add n s (dj_encrypt n s m1 r1) (dj_encrypt n s m2 r2) u)
      = (m1 + m2) % n ^ s := by
  apply dj_decrypt_of_modEq p q n t d s (m1 + m2) (r1 * r2 * u) _
    hp hq hne hn ht hs hsp hsq hd1 hdt ((hr1.mul hr2).mul hu)
  unfold dj_add dj_encrypt
  have hid : ((1 + n) ^ m1 * r1 ^ n ^ s) * ((1 + n) ^ m2 * r2 ^ n ^ s)
        * u ^ n ^ s
      = (1 + n) ^ (m1 + m2) * (r1 * r2 * u) ^ n ^ s := by
    rw [pow_add, mul_pow, mul_pow]
    ring
  calc (((1 + n) ^ m1 * r1 ^ n ^ s) % n ^ (s + 1)
          * (((1 + n) ^ m2 * r2 ^ n ^ s) % n ^ (s + 1)) * u ^ n ^ s)
          % n ^ (s + 1)
      ≡ ((1 + n) ^ m1 * r1 ^ n ^ s) % n ^ (s + 1)
          * (((1 + n) ^ m2 * r2 ^ n ^ s) % n ^ (s + 1)) * u ^ n ^ s
          [MOD n ^ (s + 1)] := Nat.mod_modEq _ _
    _ ≡ ((1 + n) ^ m1 * r1 ^ n ^ s) * ((1 + n) ^ m2 * r2 ^ n ^ s)
          * u ^ n ^ s [MOD n ^ (s + 1)] :=
        Nat.ModEq.mul
          (Nat.ModEq.mul (Nat.mod_modEq _ _) (Nat.mod_modEq _ _))
          Nat.ModEq.rfl
    _ = (1 + n) ^ (m1 + m2) * (r1 * r2 * u) ^ n ^ s := hid

/-- Witness for C2 on the spec's concrete scenario: with the fixture key
(`n = 15`, `s = 1`, `d = 16`), adding encryptions of 5 and 7 decrypts
to 12. -/
theorem dj_add_homomorphic_witness :
    dj_decrypt 15 1 16
        (dj_add 15 1 (dj_encrypt 15 1 5 2) (dj_encrypt 15 1 7 4) 7) = 12 := by
  have h := dj_add_homomorphic 3 5 15 4 16 1 5 7 2 4 7 (by norm_num)
    (by norm_num) (by decide) (by decide) (by decide) (by decide)
    (by decide) (by decide) (by decide) (by decide) (by decide) (by decide)
    (by decide) (by decide) (by decide)
  exact h.trans (by decide)
